import Mathlib

/-!
# Verification of `reflow_latex.py`

A shallow embedding of the core pipeline of `reflow_latex.py` (classifier,
span joiner, tokenizer, cost model, dynamic-programming segmenter), together
with theorems settling the specification claims about it.

Python strings are embedded as `List Char`.  All the cost constants in the
source (`COST_LINE = 1. * (CHARS_MAX - CHARS_OPT)`, `COST_LONG = 5.`, ...)
are integer-valued floats and every operation performed on them (addition,
negation, comparison, `np.argmin`) is exact on integers, so costs are
embedded as `Int`.
-/

set_option maxRecDepth 4000

namespace Reflow

/-- Python strings are embedded as lists of characters. -/
abbrev Str := List Char

/-- The set of characters Python's `str.strip()` / `str.split()` treat as
whitespace (ASCII fragment, which is all that the tool's line protocol uses). -/
def pyWs (c : Char) : Bool :=
  c = ' ' || c = '\t' || c = '\n' || c = '\x0d' || c = '\x0b' || c = '\x0c'

/-- Drop leading characters satisfying `p` (Python `lstrip`). -/
def dropLead (p : Char → Bool) (s : Str) : Str := s.dropWhile p

/-- Drop trailing characters satisfying `p` (Python `rstrip`). -/
def dropTrail (p : Char → Bool) (s : Str) : Str := (s.reverse.dropWhile p).reverse

/-- Python `str.strip()`: remove leading and trailing whitespace. -/
def pyStrip (s : Str) : Str := dropTrail pyWs (dropLead pyWs s)

/-- Python `str.strip('\n')`: remove leading and trailing newline characters. -/
def stripNl (s : Str) : Str :=
  dropTrail (fun c => c = '\n') (dropLead (fun c => c = '\n') s)

/-- Split a string at every character satisfying `p` (so `splitEach (· = ' ')`
is Python `str.split(' ')`: empty fields are kept). -/
def splitEach (p : Char → Bool) : Str → List Str
  | [] => [[]]
  | c :: rest =>
      let r := splitEach p rest
      if p c then [] :: r
      else match r with
           | [] => [[c]]
           | w :: ws => (c :: w) :: ws

/-- Python `str.split(' ')`. -/
def splitSp : Str → List Str := splitEach (fun c => c = ' ')

/-- `noblank` from the source: `[x for x in tokens if len(x) > 0]`. -/
def noblank (tokens : List Str) : List Str :=
  tokens.filter (fun x => decide (0 < x.length))

/-- Python `str.split()` (no argument): split on whitespace runs, dropping
empty fields. -/
def splitWs (s : Str) : List Str := noblank (splitEach pyWs s)

/-- Python `' '.join(line)`. -/
def joinSp : List Str → Str
  | [] => []
  | [w] => w
  | w :: rest => w ++ ' ' :: joinSp rest

/-- Python slice `l[a:b]` (for non-negative `a`, `b`). -/
def pySlice (l : List Str) (a b : Nat) : List Str := (l.drop a).take (b - a)

/-- `begMatch pat s`: does `pat` occur at the very start of `s`? -/
def begMatch : Str → Str → Bool
  | [], _ => true
  | _ :: _, [] => false
  | p :: ps, c :: cs => p = c && begMatch ps cs

/-- Python substring test `pat in s`. -/
def containsSub (pat : Str) : Str → Bool
  | [] => begMatch pat []
  | c :: cs => begMatch pat (c :: cs) || containsSub pat cs

/-! ## Cost-model constants (lines 54-83 of the source) -/

def CHARS_OPT : Int := 80
def CHARS_LONG : Int := 115
def CHARS_MAX : Int := 120

def COST_LINE : Int := 1 * (CHARS_MAX - CHARS_OPT)
def COST_LONG : Int := 5
def COST_TOOLONG : Int := 100

def COST_SHORTDELIMITED : Int := 80

def COST_FULLSTOP : Int := -55
def COST_COMMA : Int := -38
def COST_FUNC : Int := -15

def FULLSTOPS : Str := ['.', '!', '?']
def COMMAS : Str := [',', ':']

def FUNC_WORDS : List Str :=
  [['a'], ['a','n','d'], ['a','r','e'], ['a','s'], ['b','u','t'], ['b','y'],
   ['f','o','r'], ['h','a','v','i','n','g'], ['i','n'], ['i','s'], ['o','f'],
   ['o','r'], ['t','h','a','t'], ['t','h','i','s'], ['t','h','e'], ['t','o'],
   ['u','s','i','n','g'], ['w','e','r','e'], ['w','h','e','r','e'],
   ['w','h','e','n'], ['w','h','i','c','h'], ['w','i','t','h'],
   ['w','i','t','h','o','u','t']]

/-- The backquote character (used by the <backquote><backquote> ... '' quote
delimiter pair). -/
def btick : Char := Char.ofNat 96

/-- `DELIMS = ['{}', '()', '[]', ('``', "''")]`, as (opening, closing) pairs. -/
def DELIMS : List (Str × Str) :=
  [(['{'], ['}']), (['('], [')']), (['['], [']']), ([btick, btick], ['\'', '\''])]

def SHORT_DELIM : Nat := 4

/-! ## The classifier's regular expressions, as direct predicates.

The classifier applies `RE_COMMENT`, `RE_SINGLECOMMAND` and `RE_ENDBREAK` to
the whitespace-stripped line, so those strings have no leading or trailing
whitespace and (coming from `readlines`) no interior newline; `$` is
end-of-string and `.` below excludes `'\n'` exactly as in Python `re`. -/

/-- `RE_STARTSPACE = ^[ \t]` applied with `findall` to the raw line:
true iff the line starts with a space or tab. -/
def startspace (line : Str) : Bool :=
  match line with
  | [] => false
  | c :: _ => c = ' ' || c = '\t'

/-- Scanner for `RE_COMMENT = (?<!\\)%`: is there a `%` not preceded by `\`?
`prev` is the preceding character (none at the start of the string). -/
def hupAux (prev : Option Char) : Str → Bool
  | [] => false
  | c :: rest =>
      if c = '%' && prev ≠ some '\\' then true else hupAux (some c) rest

/-- `RE_COMMENT.findall(line)` nonempty: the line has an unescaped `%`. -/
def hup (s : Str) : Bool := hupAux none s

/-- Does every character of `s` differ from `'\n'` (the `.*` constraint)? -/
def noNl (s : Str) : Bool := s.all (fun c => c ≠ '\n')

/-- Tail of `RE_SINGLECOMMAND` via the `}`-final alternative: `.*}$`. -/
def scTailBrace (t : Str) : Bool :=
  t.getLast? = some '}' && noNl t.dropLast

/-- Tail of `RE_SINGLECOMMAND` via the `}%`-final alternative: `.*}%$`. -/
def scTailPct (t : Str) : Bool :=
  match t.reverse with
  | c1 :: c2 :: u => c1 = '%' && c2 = '}' && noNl u.reverse
  | _ => false

/-- `RE_SINGLECOMMAND.match(line)`: `^\\.*}%?$`. -/
def matchSC (s : Str) : Bool :=
  match s with
  | c :: t => c = '\\' && (scTailBrace t || scTailPct t)
  | [] => false

/-- `^\\.*}$`: the single-command pattern without the trailing `%`. -/
def matchSCnp (s : Str) : Bool :=
  match s with
  | c :: t => c = '\\' && scTailBrace t
  | [] => false

/-- `^\\.*}%$`: the single-command pattern with the trailing `%` present. -/
def matchSCpct (s : Str) : Bool :=
  match s with
  | c :: t => c = '\\' && scTailPct t
  | [] => false

/-- `RE_ENDBREAK = \\\\$` (two literal backslashes at end of string),
applied to the stripped (and possibly hyphen-stripped) line. -/
def endsBreak (s : Str) : Bool :=
  match s.reverse with
  | c1 :: c2 :: _ => c1 = '\\' && c2 = '\\'
  | _ => false

/-! ## Spans and the classifier (`Span`, `paragraphs`, lines 89-151) -/

inductive JoinPolicy where
  | allow
  | prefer
  | forbid
deriving DecidableEq, Repr

/-- A span before tokenization: `content` is raw text. -/
structure RawSpan where
  content : Str
  segment : Bool
  join_left : JoinPolicy
  join_right : JoinPolicy
deriving DecidableEq, Repr

/-- A span after tokenization: `content` is a token list. -/
structure TokSpan where
  content : List Str
  segment : Bool
  join_left : JoinPolicy
  join_right : JoinPolicy
deriving DecidableEq, Repr

/-- `Span(current)`: flush the accumulator (`''.join(parts).strip()`),
reflow-eligible, default join policy. -/
def mkFlush (parts : List Str) : RawSpan :=
  ⟨pyStrip parts.flatten, true, .allow, .allow⟩

/-- `Span(line.strip('\n'), segment=False, join_left='forbid', join_right='forbid')`. -/
def wsSpan (line : Str) : RawSpan := ⟨stripNl line, false, .forbid, .forbid⟩

/-- `Span('', segment=False, join_right='forbid')`. -/
def blankSpan : RawSpan := ⟨[], false, .allow, .forbid⟩

/-- `Span(line, segment=False, join_left='prefer', join_right='forbid')`. -/
def commentSpan (line : Str) : RawSpan := ⟨line, false, .prefer, .forbid⟩

/-- `Span(line, segment=False, join_left='forbid', join_right='forbid')`. -/
def cmdSpan (line : Str) : RawSpan := ⟨line, false, .forbid, .forbid⟩

/-- `Span(current, join_right='forbid')` (the `\\`-terminated flush). -/
def endSpan (parts : List Str) : RawSpan :=
  ⟨pyStrip parts.flatten, true, .allow, .forbid⟩

/-- The prose case of the classifier: if the (stripped) line ends with a
hyphen and hyphenation joining is on, drop the hyphen (`line = line[:-1]`). -/
def proseLine (hyph : Bool) (l : Str) : Str :=
  if hyph && decide (l.getLast? = some '-') then l.dropLast else l

/-- The separator appended after a prose line: empty after a stripped hyphen,
a single space otherwise. -/
def proseSep (hyph : Bool) (l : Str) : Str :=
  if hyph && decide (l.getLast? = some '-') then [] else [' ']

/-- The body of `paragraphs(lines, hyphenated)`: one generator step per line,
with the accumulator `current` as explicit state; the trailing
`yield Span(current)` is the `[]` case. -/
def paragraphsAux (hyph : Bool) (current : List Str) : List Str → List RawSpan
  | [] => [mkFlush current]
  | line :: rest =>
      if startspace line then
        mkFlush current :: wsSpan line :: paragraphsAux hyph [] rest
      else
        let l := pyStrip line
        if l.length = 0 then
          mkFlush current :: blankSpan :: paragraphsAux hyph [] rest
        else if hup l then
          mkFlush current :: commentSpan l :: paragraphsAux hyph [] rest
        else if matchSC l then
          mkFlush current :: cmdSpan l :: paragraphsAux hyph [] rest
        else
          let l' := proseLine hyph l
          let sep := proseSep hyph l
          let current' := current ++ [l', sep]
          if endsBreak l' then endSpan current' :: paragraphsAux hyph [] rest
          else paragraphsAux hyph current' rest

/-- `paragraphs(lines)` with the default `hyphenated=True` (as called by
`reflow`). -/
def paragraphs (lines : List Str) : List RawSpan := paragraphsAux true [] lines

/-- `Span.tokenize`: eligible spans split on whitespace, verbatim spans become
a single opaque token. -/
def tokenize (s : RawSpan) : TokSpan :=
  ⟨if s.segment then splitWs s.content else [s.content], s.segment, s.join_left, s.join_right⟩

/-! ## Span joiner (`join_spans`, lines 220-236) -/

/-- The loop body of `join_spans` once `previous` is set: each later span is
either merged into `previous` (when `previous.join_right` permits and the
span's `join_left` is `prefer`) or flushes `previous` and takes its place. -/
def joinAux (previous : TokSpan) : List TokSpan → List TokSpan
  | [] => [previous]
  | span :: rest =>
      if previous.join_right = .forbid then previous :: joinAux span rest
      else if span.join_left = .prefer then
        joinAux { previous with content := previous.content ++ span.content } rest
      else previous :: joinAux span rest

/-- `join_spans(spans)`.  (`previous` is `None` only before the first span.) -/
def join_spans : List TokSpan → List TokSpan
  | [] => []
  | s :: rest => joinAux s rest

/-! ## Cost model (`static_costs`, `line_cost`, lines 154-185) -/

/-- Add `v` to entries `o`, ..., `i-1` of a cost vector (numpy
`costs[o:i] += v`); `k` is the index of the first entry of the list. -/
def addRangeFrom (k o i : Nat) (v : Int) : List Int → List Int
  | [] => []
  | x :: rest =>
      (if o ≤ k ∧ k < i then x + v else x) :: addRangeFrom (k + 1) o i v rest

/-- numpy `costs[o:i] += v`. -/
def addRange (costs : List Int) (o i : Nat) (v : Int) : List Int :=
  addRangeFrom 0 o i v costs

/-- numpy `costs[i] += v` (as the one-element range update). -/
def addAt (costs : List Int) (i : Nat) (v : Int) : List Int :=
  addRange costs i (i + 1) v

/-- The two delimiter conditionals of `static_costs` for one pattern `d` at
token index `i`: record an opening that is not immediately closed; on a
closing token with an open marker, penalise every break inside a short
delimited span (`open_delims[j] >= i - SHORT_DELIM`, written here over `Nat`
as `i ≤ o + SHORT_DELIM`) and clear the marker. -/
def delimStep (d : Str × Str) (i : Nat) (token : Str) :
    List Int × Option Nat → List Int × Option Nat
  | (costs, op) =>
      let op' := if containsSub d.1 token && !containsSub d.2 token then some i else op
      if containsSub d.2 token then
        match op' with
        | some o =>
            (if i ≤ o + SHORT_DELIM then addRange costs o i COST_SHORTDELIMITED
             else costs, none)
        | none => (costs, op')
      else (costs, op')

/-- `for (j, delim) in enumerate(DELIMS)`: run `delimStep` for each pattern in
order, threading the cost vector and each pattern's own open marker. -/
def delimsScan (i : Nat) (token : Str) :
    List (Str × Str) → List (Option Nat) → List Int → List Int × List (Option Nat)
  | [], _, costs => (costs, [])
  | _ :: _, [], costs => (costs, [])
  | d :: ds, op :: ops, costs =>
      let (c', o') := delimStep d i token (costs, op)
      let (c'', os') := delimsScan i token ds ops c'
      (c'', o' :: os')

/-- The loop body of `static_costs` for the token at index `i` (empty tokens
are skipped entirely by the `continue`). -/
def tokenStep (st : List Int × List (Option Nat)) (it : Nat × Str) :
    List Int × List (Option Nat) :=
  let (costs, opens) := st
  let (i, token) := it
  if token.length = 0 then (costs, opens)
  else
    let costs := match token.getLast? with
      | some c => if FULLSTOPS.contains c then addAt costs i COST_FULLSTOP else costs
      | none => costs
    let costs := match token.getLast? with
      | some c => if COMMAS.contains c then addAt costs i COST_COMMA else costs
      | none => costs
    let costs :=
      if FUNC_WORDS.contains (token.map Char.toLower) then
        let costs := addAt costs i (-COST_FUNC)
        if 0 < i then addAt costs (i - 1) COST_FUNC else costs
      else costs
    delimsScan i token DELIMS opens costs

/-- `static_costs(line)`: one break-cost adjustment per token index. -/
def static_costs (line : List Str) : List Int :=
  (line.enum.foldl tokenStep
    (List.replicate line.length 0, List.replicate DELIMS.length none)).1

/-- `line_cost(line)` (lines 180-185). -/
def line_cost (line : List Str) : Int :=
  let n : Int := (joinSp line).length
  let extra : Int := if n > CHARS_MAX then COST_TOOLONG else 0
  let extra : Int := if n > CHARS_LONG then extra + COST_LONG else extra
  |n - CHARS_OPT| + COST_LINE + extra

/-! ## Segmenter (`segment`, lines 192-217) -/

/-- The minimum of a list of costs (`[]` only as a degenerate default). -/
def listMin : List Int → Int
  | [] => 0
  | [v] => v
  | v :: rest => min v (listMin rest)

/-- `np.argmin`: index of the first occurrence of the minimum.  (In the DP
loop the array slots at indices `≥ j` hold `np.infty` and every slot below
`j` is finite, so `np.argmin` over the full array equals the first argmin of
the `j` finite entries modelled here.) -/
def argminFirst : List Int → Nat
  | [] => 0
  | [_] => 0
  | v :: rest => if v ≤ listMin rest then 0 else argminFirst rest + 1

/-- `current[i] = dpcost[i] + line_cost(line[(i+1):j])` for `i in range(j)`. -/
def candidates (line : List Str) (cost : List Int) (j : Nat) : List Int :=
  (List.range j).map (fun i => cost.getD i 0 + line_cost (pySlice line (i + 1) j))

/-- The DP loop of `segment` after `m` iterations (`j = 1, ..., m`): returns
`(dpcost, dpback)` as lists of length `m + 1`.  `dpcost[0] = 0`,
`dpback[0] = -1`. -/
def dpLoop (line : List Str) (scosts : List Int) : Nat → List Int × List Int
  | 0 => ([0], [-1])
  | m + 1 =>
      let t := dpLoop line scosts m
      let cur := candidates line t.1 (m + 1)
      let b := argminFirst cur
      (t.1 ++ [cur.getD b 0 + scosts.getD m 0], t.2 ++ [Int.ofNat b])

/-- The full DP tables: `j` runs from 1 to `n_tokens - 1`. -/
def dpTables (line : List Str) (scosts : List Int) : List Int × List Int :=
  dpLoop line scosts (line.length - 1)

/-- The reconstruction loop of `segment`: `while cursor > -1`, append
`' '.join(noblank(line[cursor:prevcursor]))` and step the cursor through
`dpback`.  Fuel-indexed (the cursor strictly decreases, so `line.length`
steps always suffice). -/
def walkAcc (line : List Str) (back : List Int) :
    Nat → Int → Nat → List Str → List Str
  | 0, _, _, out => out
  | fuel + 1, cursor, prevcursor, out =>
      if -1 < cursor then
        walkAcc line back fuel (back.getD cursor.toNat 0) cursor.toNat
          (out ++ [joinSp (noblank (pySlice line cursor.toNat prevcursor))])
      else out

/-- The token slices visited by the reconstruction loop, in walk order
(rightmost line first); `segment`'s output is these slices noblank-filtered,
space-joined and reversed. -/
def walkSegs (line : List Str) (back : List Int) : Nat → Int → Nat → List (List Str)
  | 0, _, _ => []
  | fuel + 1, cursor, prevcursor =>
      if -1 < cursor then
        pySlice line cursor.toNat prevcursor ::
          walkSegs line back fuel (back.getD cursor.toNat 0) cursor.toNat
      else []

/-- `segment(line)` (lines 192-217): prepend the sentinel, run the DP, and
rebuild the output lines via the back pointers (`reversed(out)`). -/
def segment (tokens : List Str) : List Str :=
  let line := ([] : Str) :: tokens
  let scosts := static_costs line
  let tables := dpTables line scosts
  let back := tables.2
  (walkAcc line back line.length (back.getD (line.length - 1) 0) line.length []).reverse

/-! ## Pipeline (`segment_spans`, `reflow`, lines 239-255) -/

/-- `segment_spans(spans)`: eligible spans are segmented, verbatim spans pass
through; every emitted segment gets a trailing newline. -/
def segment_spans (spans : List TokSpan) : List Str :=
  spans.flatMap (fun s =>
    (if s.segment then segment s.content else s.content).map (fun seg => seg ++ ['\n']))

/-- `reflow(items)` (lines 249-255). -/
def reflow (lines : List Str) : List Str :=
  segment_spans (join_spans ((paragraphs lines).map tokenize))

/-- The sentinel-prepended token list `[''] + line` of `segment`. -/
def lineOf (tokens : List Str) : List Str := ([] : Str) :: tokens

/-- The `dpcost` table `segment` computes for a span's token list. -/
def dpcostOf (tokens : List Str) : List Int :=
  (dpTables (lineOf tokens) (static_costs (lineOf tokens))).1

/-- The `dpback` table `segment` computes for a span's token list. -/
def dpbackOf (tokens : List Str) : List Int :=
  (dpTables (lineOf tokens) (static_costs (lineOf tokens))).2

/-- The `current` cost array at DP position `j`. -/
def candOf (tokens : List Str) (j : Nat) : List Int :=
  candidates (lineOf tokens) (dpcostOf tokens) j

/-- A line the classifier treats as leading-whitespace or single-atomic-command
verbatim (the two classes emitted with `join_left = forbid`). -/
def verbLine (l : Str) : Bool :=
  startspace l ||
    (decide ((pyStrip l).length ≠ 0) && !hup (pyStrip l) && matchSC (pyStrip l))

/-- The verbatim span such a line is emitted as. -/
def verbSpan (l : Str) : RawSpan :=
  if startspace l then wsSpan l else cmdSpan (pyStrip l)

/-! ## Claim-side definitions (used to compare the spec's wording with the
code; each follows the cited claim's words, not the source). -/

/-- The reconstruction walk exactly as claim C1 words it: follow `backPointer`
from the final position back to `0`, each visited position `j` contributing
the segment `tokens[backPointer[j]+1 : j]` (blank tokens filtered, joined by
single spaces), the walk reversed for left-to-right emission. -/
def claimReconAux (line : List Str) (back : List Int) : Nat → Nat → List Str
  | 0, _ => []
  | fuel + 1, j =>
      if j = 0 then []
      else
        joinSp (noblank (pySlice line ((back.getD j 0).toNat + 1) j)) ::
          claimReconAux line back fuel (back.getD j 0).toNat

/-- The output lines claim C1's reconstruction formula predicts for a span's
token list (same sentinel, same DP tables as `segment`). -/
def claimRecon (tokens : List Str) : List Str :=
  let line := ([] : Str) :: tokens
  let back := (dpTables line (static_costs line)).2
  (claimReconAux line back line.length (line.length - 1)).reverse

/-- Span joiner on raw (untokenized) spans, as claim C5 and spec section 4.2
word it: merge a `prefer` span by concatenating its raw content. -/
def joinRawAux (previous : RawSpan) : List RawSpan → List RawSpan
  | [] => [previous]
  | span :: rest =>
      if previous.join_right = .forbid then previous :: joinRawAux span rest
      else if span.join_left = .prefer then
        joinRawAux { previous with content := previous.content ++ span.content } rest
      else previous :: joinRawAux span rest

/-- Raw-content span joiner (claim C5's ordering of the pipeline). -/
def join_spans_raw : List RawSpan → List RawSpan
  | [] => []
  | s :: rest => joinRawAux s rest

/-- The pipeline in the order claim C5 asserts: Classifier, then Span Joiner
merging raw contents, then Tokenizer, then Segmenter. -/
def specOrderReflow (lines : List Str) : List Str :=
  segment_spans ((join_spans_raw (paragraphs lines)).map tokenize)

/-- The token sequence claim C3 extracts from the Segmenter's output: the
output lines, each split on spaces, concatenated, blank tokens dropped. -/
def claimOutWords (tokens : List Str) : List Str :=
  (segment tokens).flatMap (fun l => noblank (splitSp l))

/-- The two-token list of claim C2's counterexample: `"a"` and 119 `X`s. -/
def c2tokens : List Str := [['a'], List.replicate 119 'X']

/-- The merged token list of claim C3's counterexample. -/
def c3tokens : List Str := [['a'], ['%', ' ', 'b', ' ', 'c']]

/-- The single 139-character input line of claim C9's counterexample:
fourteen 9-character words, the fourth ending in a hyphen. -/
def c9input : List Str :=
  [joinSp ([List.replicate 9 'a', List.replicate 9 'a', List.replicate 9 'a',
            List.replicate 8 'b' ++ ['-']] ++ List.replicate 10 (List.replicate 9 'a'))]

/-! ## Helper lemmas -/

theorem addRangeFrom_getD (v : Int) (o i : Nat) :
    ∀ (l : List Int) (k j : Nat),
      (addRangeFrom k o i v l).getD j 0 =
        l.getD j 0 + (if o ≤ k + j ∧ k + j < i ∧ j < l.length then v else 0) := by
  intro l
  induction l with
  | nil => intro k j; simp [addRangeFrom]
  | cons x rest ih =>
      intro k j
      cases j with
      | zero =>
          simp only [addRangeFrom, List.getD_cons_zero, List.length_cons]
          split <;> split <;> first | rfl | omega
      | succ j' =>
          simp only [addRangeFrom, List.getD_cons_succ]
          rw [ih (k + 1) j']
          have : k + 1 + j' = k + (j' + 1) := by omega
          rw [this]
          congr 1
          simp only [List.length_cons]
          split <;> split <;> first | rfl | omega

theorem addRange_getD (costs : List Int) (o i : Nat) (v : Int) (j : Nat) :
    (addRange costs o i v).getD j 0 =
      costs.getD j 0 + (if o ≤ j ∧ j < i ∧ j < costs.length then v else 0) := by
  simpa using addRangeFrom_getD v o i costs 0 j

theorem hupAux_ends_pct : ∀ (u : Str) (prev : Option Char),
    hupAux prev (u ++ ['}', '%']) = true := by
  intro u
  induction u with
  | nil => intro prev; simp [hupAux]
  | cons a u' ih =>
      intro prev
      simp only [List.cons_append, hupAux]
      split
      · rfl
      · exact ih (some a)

theorem hup_ends_pct (u : Str) : hup (u ++ ['}', '%']) = true :=
  hupAux_ends_pct u none

/-- A string whose `.*}%$`-tail matches decomposes as `u ++ ['}', '%']`. -/
theorem scTailPct_decomp (t : Str) (h : scTailPct t = true) :
    ∃ u : Str, t = u ++ ['}', '%'] := by
  unfold scTailPct at h
  rcases hr : t.reverse with _ | ⟨c1, rest⟩ <;> rw [hr] at h
  · simp at h
  · rcases rest with _ | ⟨c2, u⟩
    · simp at h
    · simp only [Bool.and_eq_true, decide_eq_true_eq] at h
      refine ⟨u.reverse, ?_⟩
      have : t = t.reverse.reverse := (List.reverse_reverse t).symm
      rw [this, hr, h.1.1, h.1.2]
      simp

/-! ### Branch equations for `paragraphsAux` -/

theorem para_nil (hyph : Bool) (current : List Str) :
    paragraphsAux hyph current [] = [mkFlush current] := rfl

theorem para_ws (hyph : Bool) (current : List Str) (line : Str)
    (rest : List Str) (h : startspace line = true) :
    paragraphsAux hyph current (line :: rest) =
      mkFlush current :: wsSpan line :: paragraphsAux hyph [] rest := by
  rw [paragraphsAux]
  simp only [h, if_true]

theorem para_blank (hyph : Bool) (current : List Str) (line : Str)
    (rest : List Str) (h1 : startspace line = false)
    (h2 : (pyStrip line).length = 0) :
    paragraphsAux hyph current (line :: rest) =
      mkFlush current :: blankSpan :: paragraphsAux hyph [] rest := by
  rw [paragraphsAux]
  simp only [h1, Bool.false_eq_true, if_false, h2, if_true]

theorem para_comment (hyph : Bool) (current : List Str) (line : Str)
    (rest : List Str) (h1 : startspace line = false)
    (h2 : (pyStrip line).length ≠ 0) (h3 : hup (pyStrip line) = true) :
    paragraphsAux hyph current (line :: rest) =
      mkFlush current :: commentSpan (pyStrip line) :: paragraphsAux hyph [] rest := by
  rw [paragraphsAux]
  simp only [h1, Bool.false_eq_true, if_false, h2, h3, if_true]

theorem para_cmd (hyph : Bool) (current : List Str) (line : Str)
    (rest : List Str) (h1 : startspace line = false)
    (h2 : (pyStrip line).length ≠ 0) (h3 : hup (pyStrip line) = false)
    (h4 : matchSC (pyStrip line) = true) :
    paragraphsAux hyph current (line :: rest) =
      mkFlush current :: cmdSpan (pyStrip line) :: paragraphsAux hyph [] rest := by
  rw [paragraphsAux]
  simp only [h1, h3, Bool.false_eq_true, if_false, h2, h4, if_true]

theorem para_prose_brk (hyph : Bool) (current : List Str) (line : Str)
    (rest : List Str) (h1 : startspace line = false)
    (h2 : (pyStrip line).length ≠ 0) (h3 : hup (pyStrip line) = false)
    (h4 : matchSC (pyStrip line) = false)
    (h5 : endsBreak (proseLine hyph (pyStrip line)) = true) :
    paragraphsAux hyph current (line :: rest) =
      endSpan (current ++ [proseLine hyph (pyStrip line), proseSep hyph (pyStrip line)])
        :: paragraphsAux hyph [] rest := by
  rw [paragraphsAux]
  simp only [h1, h3, h4, Bool.false_eq_true, if_false, h2, h5, if_true]

theorem para_prose_acc (hyph : Bool) (current : List Str) (line : Str)
    (rest : List Str) (h1 : startspace line = false)
    (h2 : (pyStrip line).length ≠ 0) (h3 : hup (pyStrip line) = false)
    (h4 : matchSC (pyStrip line) = false)
    (h5 : endsBreak (proseLine hyph (pyStrip line)) = false) :
    paragraphsAux hyph current (line :: rest) =
      paragraphsAux hyph
        (current ++ [proseLine hyph (pyStrip line), proseSep hyph (pyStrip line)]) rest := by
  rw [paragraphsAux]
  simp only [h1, h3, h4, h5, Bool.false_eq_true, if_false, h2]

/-! ## Claim C6: the line-cost formula -/

/-- C6: for every token list, `line_cost` equals `|n - 80| + 40` (with `n` the
length of the tokens joined by single spaces) plus a fixed `100` exactly when
`n` exceeds the hard limit `120` and a fixed `5` exactly when `n` exceeds the
long threshold `115`; for a line shorter than the target width `80` the cost
is just the linear deviation `80 - n` plus the per-line constant `40`. -/
theorem c6_line_cost_formula (line : List Str) :
    line_cost line =
      |((joinSp line).length : Int) - 80| + 40
        + (if ((joinSp line).length : Int) > 120 then 100 else 0)
        + (if ((joinSp line).length : Int) > 115 then 5 else 0)
    ∧ (((joinSp line).length : Int) < 80 →
        line_cost line = (80 - ((joinSp line).length : Int)) + 40) := by
  simp only [line_cost, CHARS_OPT, CHARS_LONG, CHARS_MAX, COST_LINE, COST_LONG,
    COST_TOOLONG]
  constructor
  · rcases le_or_lt 80 ((joinSp line).length : Int) with h | h
    · rw [abs_of_nonneg (by omega)]
      split_ifs <;> omega
    · rw [abs_of_nonpos (by omega)]
      split_ifs <;> omega
  · intro hlt
    rw [abs_of_nonpos (by omega)]
    split_ifs <;> omega

/-- Witness for C6 at the concrete one-token line `["a"]` (`n = 1 < 80`). -/
theorem c6_witness : line_cost [['a']] = (80 - ((joinSp [['a']]).length : Int)) + 40 :=
  (c6_line_cost_formula [['a']]).2 (by decide)

/-! ## Claim C7: the short-delimiter penalty in `static_costs` -/

/-- C7: for every delimiter pair in `DELIMS`, when the token at index `i`
contains the closing marker while the pair is open at an earlier index `o`,
and the span is within the short threshold (`o >= i - SHORT_DELIM`, i.e.
`i <= o + SHORT_DELIM`), the per-pattern step of `static_costs` adds
`COST_SHORTDELIMITED = 80` to the break cost at every index from `o` up to
but excluding `i`, and clears the open marker for that pair. -/
theorem c7_short_delim_penalty (d : Str × Str) (i o : Nat) (token : Str)
    (costs : List Int) (hd : d ∈ DELIMS) (hc : containsSub d.2 token = true)
    (ho : o < i) (hs : i ≤ o + SHORT_DELIM) :
    delimStep d i token (costs, some o) =
      (addRange costs o i COST_SHORTDELIMITED, none)
    ∧ ∀ k : Nat,
        ((delimStep d i token (costs, some o)).1).getD k 0 =
          costs.getD k 0 +
            (if o ≤ k ∧ k < i ∧ k < costs.length then COST_SHORTDELIMITED else 0) := by
  have hstep : delimStep d i token (costs, some o) =
      (addRange costs o i COST_SHORTDELIMITED, none) := by
    unfold delimStep
    simp [hc, hs]
  refine ⟨hstep, fun k => ?_⟩
  rw [hstep]
  exact addRange_getD costs o i COST_SHORTDELIMITED k

/-- Witness for C7: closing `)` at index 2 with `(` open at index 1 penalises
exactly the break after index 1. -/
theorem c7_witness :
    delimStep (['('], [')']) 2 [')'] ([0, 0, 0], some 1) =
      (addRange [0, 0, 0] 1 2 COST_SHORTDELIMITED, none)
    ∧ ∀ k : Nat,
        ((delimStep (['('], [')']) 2 [')'] ([0, 0, 0], some 1)).1).getD k 0 =
          ([0, 0, 0] : List Int).getD k 0 +
            (if 1 ≤ k ∧ k < 2 ∧ k < ([0, 0, 0] : List Int).length
             then COST_SHORTDELIMITED else 0) :=
  c7_short_delim_penalty (['('], [')']) 2 1 [')'] [0, 0, 0]
    (by decide) (by decide) (by decide) (by decide)

/-! ## Claim C10: `}%`-final single-command lines are classified as comments -/

/-- C10: a line without leading whitespace whose stripped text matches
`^\\.*}%$` (the single-command pattern with the trailing `%` present) has an
unescaped `%`, so the classifier's comment check fires first and the line is
emitted as a comment span (`join_left = prefer`, `join_right = forbid`);
consequently, for any line that reaches the single-command check (no
unescaped `%`), the `%`-trailing alternative of `RE_SINGLECOMMAND` never
decides the match. -/
theorem c10_comment_shadows_pct (l : Str) (hyph : Bool) (current : List Str)
    (rest : List Str) (h1 : startspace l = false)
    (h2 : matchSCpct (pyStrip l) = true) :
    hup (pyStrip l) = true
    ∧ paragraphsAux hyph current (l :: rest) =
        mkFlush current :: commentSpan (pyStrip l) :: paragraphsAux hyph [] rest
    ∧ (commentSpan (pyStrip l)).join_left = .prefer
    ∧ (commentSpan (pyStrip l)).join_right = .forbid
    ∧ ∀ s : Str, hup s = false → matchSC s = matchSCnp s := by
  have hdec : ∃ u : Str, pyStrip l = u ++ ['}', '%'] := by
    unfold matchSCpct at h2
    rcases hl : pyStrip l with _ | ⟨c, t⟩ <;> rw [hl] at h2
    · simp at h2
    · simp only [Bool.and_eq_true, decide_eq_true_eq] at h2
      obtain ⟨u, hu⟩ := scTailPct_decomp t h2.2
      exact ⟨c :: u, by rw [hu, h2.1]; rfl⟩
  obtain ⟨u, hu⟩ := hdec
  have hhup : hup (pyStrip l) = true := by rw [hu]; exact hup_ends_pct u
  have hne : (pyStrip l).length ≠ 0 := by rw [hu]; simp
  refine ⟨hhup, para_comment hyph current l rest h1 hne hhup, rfl, rfl, ?_⟩
  intro t ht
  rcases t with _ | ⟨c, u'⟩
  · rfl
  · have hpct : scTailPct u' = false := by
      by_contra hp
      have hp' : scTailPct u' = true := by
        cases hq : scTailPct u' with
        | true => rfl
        | false => exact absurd hq hp
      obtain ⟨v, hv⟩ := scTailPct_decomp u' hp'
      have hwit : hup (c :: u') = true := by
        rw [hv]
        have hcv : c :: (v ++ ['}', '%']) = (c :: v) ++ ['}', '%'] := rfl
        rw [hcv]
        exact hup_ends_pct (c :: v)
      rw [hwit] at ht
      exact absurd ht (by simp)
    simp only [matchSC, matchSCnp, hpct, Bool.or_false]

/-- Witness for C10 at the concrete line `\x{}%`. -/
theorem c10_witness :
    hup (pyStrip ['\\', 'x', '{', '}', '%']) = true
    ∧ paragraphsAux true [] (['\\', 'x', '{', '}', '%'] :: []) =
        mkFlush [] :: commentSpan (pyStrip ['\\', 'x', '{', '}', '%'])
          :: paragraphsAux true [] []
    ∧ (commentSpan (pyStrip ['\\', 'x', '{', '}', '%'])).join_left = .prefer
    ∧ (commentSpan (pyStrip ['\\', 'x', '{', '}', '%'])).join_right = .forbid
    ∧ ∀ s : Str, hup s = false → matchSC s = matchSCnp s :=
  c10_comment_shadows_pct ['\\', 'x', '{', '}', '%'] true [] []
    (by decide) (by decide)

/-! ## Counterexamples -/

/-- C1 counterexample: on the two-token span `["a", "b"]` the code emits the
single line `"a b"`, while the claim's reconstruction formula
`tokens[backPointer[j]+1 : j]` predicts the single line `"a"` (dropping the
final token), so the claimed reconstruction does not describe `segment`. -/
theorem c1_counterexample :
    claimRecon [['a'], ['b']] = [['a']]
    ∧ segment [['a'], ['b']] = [['a', ' ', 'b']]
    ∧ claimRecon [['a'], ['b']] ≠ segment [['a'], ['b']] := by
  refine ⟨by decide, by decide, by decide⟩

/-- C2 counterexample: the span `["a", "XXX...X"]` (119 `X`s) admits the
partition into the two lines `"a"` (1 char) and `"XXX...X"` (119 chars), both
within the hard limit 120, yet the Segmenter emits the single joined line of
121 characters. -/
theorem c2_counterexample :
    (joinSp [['a']]).length ≤ 120
    ∧ (joinSp [List.replicate 119 'X']).length ≤ 120
    ∧ [['a']] ++ [List.replicate 119 'X'] = c2tokens
    ∧ segment c2tokens = [joinSp c2tokens]
    ∧ (joinSp c2tokens).length = 121 := by
  refine ⟨by decide, by decide, by decide, by decide, by decide⟩

/-- C3 counterexample: for the input lines `"a"` and `"% b c"` the joiner
merges the comment line into the eligible span as the single token `"% b c"`;
splitting the Segmenter's output lines on spaces yields
`["a", "%", "b", "c"]`, which differs from the span's non-blank input token
sequence `["a", "% b c"]`. -/
theorem c3_counterexample :
    (∃ s ∈ join_spans ((paragraphs [['a'], ['%', ' ', 'b', ' ', 'c']]).map tokenize),
        s.segment = true ∧ s.content = c3tokens)
    ∧ claimOutWords c3tokens = [['a'], ['%'], ['b'], ['c']]
    ∧ noblank c3tokens = c3tokens
    ∧ claimOutWords c3tokens ≠ noblank c3tokens := by
  refine ⟨by decide, by decide, by decide, by decide⟩

/-- C4 counterexample: the input line `a \\` (ending in a double backslash)
makes the classifier flush a reflow-eligible span with
`join_right = forbid`. -/
theorem c4_counterexample :
    ∃ s ∈ paragraphs [['a', ' ', '\\', '\\']],
      s.segment = true ∧ ¬(s.join_left = .allow ∧ s.join_right = .allow) := by
  decide

/-- C5 counterexample: on the input lines `"a"`, `"% b"` the code (tokenizer
before joiner) outputs `"a % b"`, while the claim's order (joiner merging raw
contents before tokenization) outputs `"a% b"`. -/
theorem c5_counterexample :
    reflow [['a'], ['%', ' ', 'b']] = [['a', ' ', '%', ' ', 'b', '\n']]
    ∧ specOrderReflow [['a'], ['%', ' ', 'b']] = [['a', '%', ' ', 'b', '\n']]
    ∧ specOrderReflow [['a'], ['%', ' ', 'b']] ≠ reflow [['a'], ['%', ' ', 'b']] := by
  refine ⟨by decide, by decide, by decide⟩

/-- C8 counterexample: the comment-bearing input line `"x %y "` (trailing
space) is emitted whitespace-stripped, so no output line reproduces it
byte-for-byte (even ignoring the newline terminator). -/
theorem c8_counterexample :
    startspace ['x', ' ', '%', 'y', ' '] = false
    ∧ hup (pyStrip ['x', ' ', '%', 'y', ' ']) = true
    ∧ reflow [['x', ' ', '%', 'y', ' ']] = [['x', ' ', '%', 'y', '\n']]
    ∧ ¬ ∃ l ∈ reflow [['x', ' ', '%', 'y', ' ']],
        stripNl l = ['x', ' ', '%', 'y', ' '] := by
  refine ⟨by decide, by decide, by decide, by decide⟩

/-- C9 counterexample: the pipeline output for `c9input` is two prose lines of
39 and 99 characters (both within the soft thresholds, with no verbatim spans
at all), but the first output line ends in a hyphen, so a second run of the
pipeline strips the hyphen and re-joins the words: the pipeline is not a
fixed point on this output. -/
theorem c9_counterexample :
    (∀ l ∈ reflow c9input, (stripNl l).length ≤ 115)
    ∧ (∀ s ∈ paragraphs (reflow c9input), s.segment = true)
    ∧ reflow (reflow c9input) ≠ reflow c9input := by
  refine ⟨by decide, by decide, by decide⟩

/-! ## Claim C5 (amended): the actual pipeline order -/

/-- C5 (amended): the pipeline applies the Tokenizer to the Classifier's spans
before the Span Joiner; the composed pipeline equals Classifier, then
Tokenizer on every span, then Span Joiner merging token lists, then Segmenter
per reflow-eligible span. -/
theorem c5_amended_order (lines : List Str) :
    reflow lines = segment_spans (join_spans ((paragraphs lines).map tokenize)) := rfl

/-! ## Claim C4 (amended): eligible spans always have `join_left = allow` -/

/-- Case analysis for membership in the classifier's output. -/
theorem mem_paragraphsAux : ∀ (lines : List Str) (hyph : Bool)
    (current : List Str) (s : RawSpan), s ∈ paragraphsAux hyph current lines →
    (∃ parts, s = mkFlush parts) ∨ (∃ l, s = wsSpan l) ∨ s = blankSpan
      ∨ (∃ l, s = commentSpan l) ∨ (∃ l, s = cmdSpan l) ∨ (∃ parts, s = endSpan parts) := by
  intro lines
  induction lines with
  | nil =>
      intro hyph current s hs
      rw [para_nil] at hs
      simp only [List.mem_singleton] at hs
      exact Or.inl ⟨current, hs⟩
  | cons line rest ih =>
      intro hyph current s hs
      by_cases h1 : startspace line = true
      · rw [para_ws hyph current line rest h1] at hs
        simp only [List.mem_cons] at hs
        rcases hs with rfl | rfl | hs
        · exact Or.inl ⟨current, rfl⟩
        · exact Or.inr (Or.inl ⟨line, rfl⟩)
        · exact ih hyph [] s hs
      · have h1' : startspace line = false := by
          cases hq : startspace line with
          | true => exact absurd hq h1
          | false => rfl
        by_cases h2 : (pyStrip line).length = 0
        · rw [para_blank hyph current line rest h1' h2] at hs
          simp only [List.mem_cons] at hs
          rcases hs with rfl | rfl | hs
          · exact Or.inl ⟨current, rfl⟩
          · exact Or.inr (Or.inr (Or.inl rfl))
          · exact ih hyph [] s hs
        · by_cases h3 : hup (pyStrip line) = true
          · rw [para_comment hyph current line rest h1' h2 h3] at hs
            simp only [List.mem_cons] at hs
            rcases hs with rfl | rfl | hs
            · exact Or.inl ⟨current, rfl⟩
            · exact Or.inr (Or.inr (Or.inr (Or.inl ⟨pyStrip line, rfl⟩)))
            · exact ih hyph [] s hs
          · have h3' : hup (pyStrip line) = false := by
              cases hq : hup (pyStrip line) with
              | true => exact absurd hq h3
              | false => rfl
            by_cases h4 : matchSC (pyStrip line) = true
            · rw [para_cmd hyph current line rest h1' h2 h3' h4] at hs
              simp only [List.mem_cons] at hs
              rcases hs with rfl | rfl | hs
              · exact Or.inl ⟨current, rfl⟩
              · exact Or.inr (Or.inr (Or.inr (Or.inr (Or.inl ⟨pyStrip line, rfl⟩))))
              · exact ih hyph [] s hs
            · have h4' : matchSC (pyStrip line) = false := by
                cases hq : matchSC (pyStrip line) with
                | true => exact absurd hq h4
                | false => rfl
              by_cases h5 : endsBreak (proseLine hyph (pyStrip line)) = true
              · rw [para_prose_brk hyph current line rest h1' h2 h3' h4' h5] at hs
                simp only [List.mem_cons] at hs
                rcases hs with rfl | hs
                · exact Or.inr (Or.inr (Or.inr (Or.inr (Or.inr ⟨_, rfl⟩))))
                · exact ih hyph [] s hs
              · have h5' : endsBreak (proseLine hyph (pyStrip line)) = false := by
                  cases hq : endsBreak (proseLine hyph (pyStrip line)) with
                  | true => exact absurd hq h5
                  | false => rfl
                rw [para_prose_acc hyph current line rest h1' h2 h3' h4' h5'] at hs
                exact ih hyph _ s hs

/-- Flags of every span emitted by `joinAux` come from `previous` or from an
input span (the joiner only ever extends contents, never join policies). -/
theorem joinAux_flags : ∀ (rest : List TokSpan) (previous s : TokSpan),
    s ∈ joinAux previous rest →
    (s.segment = previous.segment ∧ s.join_left = previous.join_left
        ∧ s.join_right = previous.join_right)
      ∨ ∃ t ∈ rest, s.segment = t.segment ∧ s.join_left = t.join_left
          ∧ s.join_right = t.join_right := by
  intro rest
  induction rest with
  | nil =>
      intro previous s hs
      unfold joinAux at hs
      simp only [List.mem_singleton] at hs
      subst hs
      exact Or.inl ⟨rfl, rfl, rfl⟩
  | cons x rest ih =>
      intro previous s hs
      unfold joinAux at hs
      split at hs
      · simp only [List.mem_cons] at hs
        rcases hs with rfl | hs
        · exact Or.inl ⟨rfl, rfl, rfl⟩
        · rcases ih x s hs with h | ⟨t, ht, h⟩
          · exact Or.inr ⟨x, List.mem_cons_self x rest, h⟩
          · exact Or.inr ⟨t, List.mem_cons_of_mem x ht, h⟩
      · split at hs
        · rcases ih _ s hs with h | ⟨t, ht, h⟩
          · exact Or.inl h
          · exact Or.inr ⟨t, List.mem_cons_of_mem x ht, h⟩
        · simp only [List.mem_cons] at hs
          rcases hs with rfl | hs
          · exact Or.inl ⟨rfl, rfl, rfl⟩
          · rcases ih x s hs with h | ⟨t, ht, h⟩
            · exact Or.inr ⟨x, List.mem_cons_self x rest, h⟩
            · exact Or.inr ⟨t, List.mem_cons_of_mem x ht, h⟩

/-- Flags of every span emitted by `join_spans` come from some input span. -/
theorem join_spans_flags (ts : List TokSpan) (s : TokSpan)
    (hs : s ∈ join_spans ts) :
    ∃ t ∈ ts, s.segment = t.segment ∧ s.join_left = t.join_left
      ∧ s.join_right = t.join_right := by
  rcases ts with _ | ⟨x, rest⟩
  · simp [join_spans] at hs
  · rcases joinAux_flags rest x s hs with h | ⟨t, ht, h⟩
    · exact ⟨x, List.mem_cons_self x rest, h⟩
    · exact ⟨t, List.mem_cons_of_mem x ht, h⟩

/-- C4 (amended): every reflow-eligible span produced by the Classifier, or by
the Span Joiner downstream of it, has `join_left = allow`; `join_right` is not
always `allow` (a span flushed at an explicit `\\` line break is eligible with
`join_right = forbid`). -/
theorem c4_amended_eligible_left_allow (lines : List Str) :
    (∀ r ∈ paragraphs lines, r.segment = true → r.join_left = .allow)
    ∧ (∀ s ∈ join_spans ((paragraphs lines).map tokenize),
        s.segment = true → s.join_left = .allow) := by
  have hraw : ∀ r ∈ paragraphs lines, r.segment = true → r.join_left = .allow := by
    intro r hr hseg
    rcases mem_paragraphsAux lines true [] r hr with
      ⟨p, h⟩ | ⟨l, h⟩ | h | ⟨l, h⟩ | ⟨l, h⟩ | ⟨p, h⟩ <;> subst h <;>
      first | rfl | exact absurd hseg (by simp [wsSpan, blankSpan, commentSpan, cmdSpan])
  refine ⟨hraw, ?_⟩
  intro s hs hseg
  obtain ⟨t, ht, hflags⟩ := join_spans_flags _ s hs
  obtain ⟨r, hr, hrt⟩ := List.mem_map.mp ht
  have hts : t.segment = r.segment := by rw [← hrt]; rfl
  have htl : t.join_left = r.join_left := by rw [← hrt]; rfl
  rw [hflags.2.1, htl]
  exact hraw r hr (by rw [← hts, ← hflags.1, hseg])

/-- Witness for C4 (amended) at the single prose line `"a"`. -/
theorem c4_amended_witness :
    (⟨[['a']], true, .allow, .allow⟩ : TokSpan).join_left = .allow :=
  (c4_amended_eligible_left_allow [['a']]).2 ⟨[['a']], true, .allow, .allow⟩
    (by decide) (by decide)

/-! ## DP-table lemmas (towards claims C1, C2, C3) -/

theorem listMin_cons (v : Int) (rest : List Int) (h : rest ≠ []) :
    listMin (v :: rest) = min v (listMin rest) := by
  cases rest with
  | nil => exact absurd rfl h
  | cons w ws => rfl

theorem argminFirst_lt_length : ∀ (l : List Int), l ≠ [] → argminFirst l < l.length := by
  intro l
  induction l with
  | nil => intro h; exact absurd rfl h
  | cons v rest ih =>
      intro _
      cases rest with
      | nil => simp [argminFirst]
      | cons w ws =>
          unfold argminFirst
          split
          · simp
          · have := ih (by simp)
            simp only [List.length_cons] at this ⊢
            omega

theorem getD_argminFirst : ∀ (l : List Int), l ≠ [] →
    l.getD (argminFirst l) 0 = listMin l := by
  intro l
  induction l with
  | nil => intro h; exact absurd rfl h
  | cons v rest ih =>
      intro _
      cases rest with
      | nil => rfl
      | cons w ws =>
          rw [listMin_cons v (w :: ws) (by simp)]
          unfold argminFirst
          split
          · rename_i hle
            simp only [List.getD_cons_zero]
            exact (min_eq_left hle).symm
          · rename_i hgt
            push_neg at hgt
            simp only [List.getD_cons_succ]
            rw [ih (by simp)]
            exact (min_eq_right hgt.le).symm

theorem argminFirst_strict : ∀ (l : List Int) (k : Nat), k < argminFirst l →
    listMin l < l.getD k 0 := by
  intro l
  induction l with
  | nil => intro k hk; simp [argminFirst] at hk
  | cons v rest ih =>
      intro k hk
      cases rest with
      | nil => simp [argminFirst] at hk
      | cons w ws =>
          rw [listMin_cons v (w :: ws) (by simp)]
          unfold argminFirst at hk
          split at hk
          · omega
          · rename_i hgt
            push_neg at hgt
            cases k with
            | zero =>
                simp only [List.getD_cons_zero]
                exact lt_of_le_of_lt (min_le_right _ _) hgt
            | succ k' =>
                simp only [List.getD_cons_succ]
                have := ih k' (by omega)
                exact lt_of_le_of_lt (min_le_right _ _) this

theorem candidates_congr (line : List Str) (c1 c2 : List Int) (j : Nat)
    (h : ∀ i, i < j → c1.getD i 0 = c2.getD i 0) :
    candidates line c1 j = candidates line c2 j := by
  unfold candidates
  apply List.map_congr_left
  intro i hi
  rw [h i (List.mem_range.mp hi)]

theorem candidates_ne_nil (line : List Str) (c : List Int) (j : Nat) (h : 1 ≤ j) :
    candidates line c j ≠ [] := by
  unfold candidates
  simp only [ne_eq, List.map_eq_nil_iff, List.range_eq_nil]
  omega

theorem dpLoop_succ (line : List Str) (sc : List Int) (m : Nat) :
    dpLoop line sc (m + 1) =
      ((dpLoop line sc m).1 ++
         [(candidates line (dpLoop line sc m).1 (m + 1)).getD
            (argminFirst (candidates line (dpLoop line sc m).1 (m + 1))) 0
          + sc.getD m 0],
       (dpLoop line sc m).2 ++
         [Int.ofNat (argminFirst (candidates line (dpLoop line sc m).1 (m + 1)))]) := rfl

theorem dpLoop_len (line : List Str) (sc : List Int) :
    ∀ m, (dpLoop line sc m).1.length = m + 1 ∧ (dpLoop line sc m).2.length = m + 1 := by
  intro m
  induction m with
  | zero => exact ⟨rfl, rfl⟩
  | succ m ih =>
      rw [dpLoop_succ]
      simp only [List.length_append, List.length_singleton, ih.1, ih.2]
      exact ⟨trivial, trivial⟩

/-- The invariant of the DP loop: entry 0 is the base case, and every entry
`1 ≤ j ≤ m` satisfies the recurrence, with the back pointer the first argmin. -/
theorem dpLoop_spec (line : List Str) (sc : List Int) :
    ∀ m, (dpLoop line sc m).1.getD 0 0 = 0 ∧ (dpLoop line sc m).2.getD 0 0 = -1
      ∧ ∀ j, 1 ≤ j → j ≤ m →
        (dpLoop line sc m).1.getD j 0 =
          listMin (candidates line (dpLoop line sc m).1 j) + sc.getD (j - 1) 0
        ∧ (dpLoop line sc m).2.getD j 0 =
            Int.ofNat (argminFirst (candidates line (dpLoop line sc m).1 j)) := by
  intro m
  induction m with
  | zero =>
      refine ⟨rfl, rfl, ?_⟩
      intro j h1 h2
      omega
  | succ m ih =>
      obtain ⟨ih0, ihb, ihj⟩ := ih
      have hlen := dpLoop_len line sc m
      have hpre1 : ∀ i, i ≤ m →
          (dpLoop line sc (m + 1)).1.getD i 0 = (dpLoop line sc m).1.getD i 0 := by
        intro i hi
        rw [dpLoop_succ]
        refine List.getD_append _ _ _ _ ?_
        rw [(dpLoop_len line sc m).1]
        omega
      have hpre2 : ∀ i, i ≤ m →
          (dpLoop line sc (m + 1)).2.getD i 0 = (dpLoop line sc m).2.getD i 0 := by
        intro i hi
        rw [dpLoop_succ]
        refine List.getD_append _ _ _ _ ?_
        rw [(dpLoop_len line sc m).2]
        omega
      have hcand : ∀ j, j ≤ m + 1 →
          candidates line (dpLoop line sc (m + 1)).1 j =
            candidates line (dpLoop line sc m).1 j := by
        intro j hj
        apply candidates_congr
        intro i hi
        exact hpre1 i (by omega)
      refine ⟨by rw [hpre1 0 (by omega)]; exact ih0,
              by rw [hpre2 0 (by omega)]; exact ihb, ?_⟩
      intro j h1 h2
      rcases Nat.lt_or_ge j (m + 1) with hj | hj
      · have hj' : j ≤ m := by omega
        obtain ⟨hc, hb⟩ := ihj j h1 hj'
        exact ⟨by rw [hpre1 j hj', hcand j (by omega)]; exact hc,
               by rw [hpre2 j hj', hcand j (by omega)]; exact hb⟩
      · have hj' : j = m + 1 := by omega
        subst hj'
        have hnew1 : (dpLoop line sc (m + 1)).1.getD (m + 1) 0 =
            (candidates line (dpLoop line sc m).1 (m + 1)).getD
              (argminFirst (candidates line (dpLoop line sc m).1 (m + 1))) 0
              + sc.getD m 0 := by
          rw [dpLoop_succ]
          rw [List.getD_append_right ((dpLoop line sc m).1) _ 0 (m + 1) (le_of_eq hlen.1)]
          simp only [hlen.1, Nat.sub_self, List.getD_cons_zero]
        have hnew2 : (dpLoop line sc (m + 1)).2.getD (m + 1) 0 =
            Int.ofNat (argminFirst (candidates line (dpLoop line sc m).1 (m + 1))) := by
          rw [dpLoop_succ]
          rw [List.getD_append_right ((dpLoop line sc m).2) _ 0 (m + 1) (le_of_eq hlen.2)]
          simp only [hlen.2, Nat.sub_self, List.getD_cons_zero]
        constructor
        · rw [hnew1, hcand (m + 1) (by omega),
            getD_argminFirst _ (candidates_ne_nil line _ (m + 1) (by omega))]
          simp
        · rw [hnew2, hcand (m + 1) (by omega)]

/-- The reconstruction loop, expressed via its visited slices. -/
theorem walkAcc_eq_segs (line : List Str) (back : List Int) :
    ∀ (fuel : Nat) (c : Int) (p : Nat) (out : List Str),
      walkAcc line back fuel c p out =
        out ++ (walkSegs line back fuel c p).map (fun sl => joinSp (noblank sl)) := by
  intro fuel
  induction fuel with
  | zero => intro c p out; simp [walkAcc, walkSegs]
  | succ fuel ih =>
      intro c p out
      unfold walkAcc walkSegs
      split
      · rw [ih]
        simp
      · simp

/-- `segment` in terms of the walk's slices. -/
theorem segment_eq_segs (tokens : List Str) :
    segment tokens =
      ((walkSegs (lineOf tokens) (dpbackOf tokens) (lineOf tokens).length
          ((dpbackOf tokens).getD ((lineOf tokens).length - 1) 0)
          (lineOf tokens).length).map (fun sl => joinSp (noblank sl))).reverse := by
  unfold segment
  dsimp only
  rw [walkAcc_eq_segs]
  simp only [List.nil_append]
  rfl

/-! ## Claim C1 (amended) -/

/-- C1 (amended): the Segmenter computes `bestCost[0] = 0` and, for each
position `j` from 1 to `n`, `bestCost[j] = (min over i in [0, j) of
bestCost[i] + lineCost(tokens[i+1 : j])) + staticCost(tokens)[j-1]`, ties
broken toward the lowest `i`, recording the minimizing `i` as
`backPointer[j]`; the output is reconstructed by the walk that starts with
`prevcursor = n + 1` and `cursor = backPointer[n]`, emits the segment
`tokens[cursor : prevcursor]` (blank tokens filtered, joined by single
spaces) at each step, then advances `prevcursor ← cursor`,
`cursor ← backPointer[cursor]` until the cursor reaches `-1`, and reverses
the collected segments into left-to-right order. -/
theorem c1_amended_dp (tokens : List Str) (j : Nat) (h1 : 1 ≤ j)
    (h2 : j < (lineOf tokens).length) :
    (dpcostOf tokens).getD 0 0 = 0
    ∧ (dpcostOf tokens).getD j 0 =
        listMin (candOf tokens j) + (static_costs (lineOf tokens)).getD (j - 1) 0
    ∧ (dpbackOf tokens).getD j 0 = Int.ofNat (argminFirst (candOf tokens j))
    ∧ (candOf tokens j).getD (argminFirst (candOf tokens j)) 0 = listMin (candOf tokens j)
    ∧ (∀ k, k < argminFirst (candOf tokens j) →
        listMin (candOf tokens j) < (candOf tokens j).getD k 0)
    ∧ segment tokens =
        ((walkSegs (lineOf tokens) (dpbackOf tokens) (lineOf tokens).length
            ((dpbackOf tokens).getD ((lineOf tokens).length - 1) 0)
            (lineOf tokens).length).map (fun sl => joinSp (noblank sl))).reverse := by
  have hspec := dpLoop_spec (lineOf tokens) (static_costs (lineOf tokens))
    ((lineOf tokens).length - 1)
  obtain ⟨h0, hb, hj⟩ := hspec
  have hjle : j ≤ (lineOf tokens).length - 1 := by
    have : (lineOf tokens).length = tokens.length + 1 := rfl
    omega
  obtain ⟨hc, hbk⟩ := hj j h1 hjle
  have hne : candOf tokens j ≠ [] := candidates_ne_nil _ _ j h1
  exact ⟨h0, hc, hbk, getD_argminFirst _ hne, fun k hk => argminFirst_strict _ k hk,
    segment_eq_segs tokens⟩

/-- Witness for C1 (amended) at the two-token span `["a", "b"]`, `j = 1`. -/
theorem c1_amended_witness :
    (dpcostOf [['a'], ['b']]).getD 0 0 = 0
    ∧ (dpcostOf [['a'], ['b']]).getD 1 0 =
        listMin (candOf [['a'], ['b']] 1)
          + (static_costs (lineOf [['a'], ['b']])).getD 0 0
    ∧ (dpbackOf [['a'], ['b']]).getD 1 0 =
        Int.ofNat (argminFirst (candOf [['a'], ['b']] 1))
    ∧ (candOf [['a'], ['b']] 1).getD (argminFirst (candOf [['a'], ['b']] 1)) 0 =
        listMin (candOf [['a'], ['b']] 1)
    ∧ (∀ k, k < argminFirst (candOf [['a'], ['b']] 1) →
        listMin (candOf [['a'], ['b']] 1) < (candOf [['a'], ['b']] 1).getD k 0)
    ∧ segment [['a'], ['b']] =
        ((walkSegs (lineOf [['a'], ['b']]) (dpbackOf [['a'], ['b']])
            (lineOf [['a'], ['b']]).length
            ((dpbackOf [['a'], ['b']]).getD ((lineOf [['a'], ['b']]).length - 1) 0)
            (lineOf [['a'], ['b']]).length).map (fun sl => joinSp (noblank sl))).reverse :=
  c1_amended_dp [['a'], ['b']] 1 (by decide) (by decide)

/-! ## The reconstruction walk partitions the sentinel line (towards C2, C3) -/

theorem candidates_length (line : List Str) (c : List Int) (j : Nat) :
    (candidates line c j).length = j := by
  simp [candidates]

/-- The back pointers computed by the DP lie in `[0, j)` for `1 ≤ j < n`. -/
theorem dpback_bounds (tokens : List Str) (j : Nat) (h1 : 1 ≤ j)
    (h2 : j < (lineOf tokens).length) :
    0 ≤ (dpbackOf tokens).getD j 0 ∧ (dpbackOf tokens).getD j 0 < (j : Int) := by
  have hjle : j ≤ (lineOf tokens).length - 1 := by omega
  obtain ⟨_, _, hj⟩ := dpLoop_spec (lineOf tokens) (static_costs (lineOf tokens))
    ((lineOf tokens).length - 1)
  obtain ⟨_, hbk⟩ := hj j h1 hjle
  have hbk' : (dpbackOf tokens).getD j 0 =
      Int.ofNat (argminFirst (candOf tokens j)) := hbk
  have harg : argminFirst (candOf tokens j) < j := by
    have h' : argminFirst (candOf tokens j) < (candOf tokens j).length :=
      argminFirst_lt_length _ (candidates_ne_nil (lineOf tokens) (dpcostOf tokens) j h1)
    have hlen : (candOf tokens j).length = j :=
      candidates_length (lineOf tokens) (dpcostOf tokens) j
    omega
  rw [hbk']
  exact ⟨Int.ofNat_nonneg _, Int.ofNat_lt.mpr harg⟩

/-- `dpback[0] = -1`. -/
theorem dpback_zero (tokens : List Str) : (dpbackOf tokens).getD 0 0 = -1 :=
  (dpLoop_spec (lineOf tokens) (static_costs (lineOf tokens))
    ((lineOf tokens).length - 1)).2.1

/-- The walk stops immediately on a negative cursor. -/
theorem walkSegs_neg (line : List Str) (back : List Int) :
    ∀ (fuel p : Nat), walkSegs line back fuel (-1) p = [] := by
  intro fuel p
  cases fuel with
  | zero => rfl
  | succ f => simp [walkSegs]

theorem pySlice_glue (l : List Str) (c p : Nat) (h : c ≤ p) :
    pySlice l 0 c ++ pySlice l c p = pySlice l 0 p := by
  unfold pySlice
  simp only [List.drop_zero, Nat.sub_zero]
  have : p = c + (p - c) := by omega
  rw [this, List.take_add]
  simp

/-- The reversed walk slices flatten back to the prefix `line[0:p]`. -/
theorem walkSegs_flatten (tokens : List Str) : ∀ (c : Nat), ∀ (fuel p : Nat),
    c < p → p ≤ (lineOf tokens).length → c + 1 ≤ fuel →
    ((walkSegs (lineOf tokens) (dpbackOf tokens) fuel (Int.ofNat c) p).reverse).flatten
      = pySlice (lineOf tokens) 0 p := by
  intro c
  induction c using Nat.strong_induction_on with
  | _ c ih =>
      intro fuel p hcp hpn hfuel
      obtain ⟨f, rfl⟩ : ∃ f, fuel = f + 1 := ⟨fuel - 1, by omega⟩
      unfold walkSegs
      have hcond : (-1 : Int) < Int.ofNat c := by
        have hnn : (0 : Int) ≤ Int.ofNat c := Int.ofNat_nonneg c
        omega
      rw [if_pos hcond]
      rcases Nat.eq_zero_or_pos c with hc0 | hcpos
      · subst hc0
        have htoc : (Int.ofNat 0).toNat = 0 := rfl
        rw [htoc, dpback_zero tokens, walkSegs_neg]
        simp
      · have hbounds := dpback_bounds tokens c hcpos (by omega)
        have htoc : (Int.ofNat c).toNat = c := by simp
        rw [htoc]
        obtain ⟨b, hb⟩ : ∃ b : Nat, (dpbackOf tokens).getD c 0 = Int.ofNat b :=
          ⟨((dpbackOf tokens).getD c 0).toNat, (Int.toNat_of_nonneg hbounds.1).symm⟩
        have hblt : b < c := by
          have hlt := hbounds.2
          rw [hb] at hlt
          exact Int.ofNat_lt.mp hlt
        rw [hb, List.reverse_cons, List.flatten_append,
          ih b hblt f c hblt (by omega) (by omega)]
        simp only [List.flatten_cons, List.flatten_nil, List.append_nil]
        exact pySlice_glue _ c p (by omega)

/-- For a nonempty token list, the output slices of `segment` partition the
sentinel-prepended line. -/
theorem segment_slices_flatten (tokens : List Str) (h : tokens ≠ []) :
    ((walkSegs (lineOf tokens) (dpbackOf tokens) (lineOf tokens).length
        ((dpbackOf tokens).getD ((lineOf tokens).length - 1) 0)
        (lineOf tokens).length).reverse).flatten = lineOf tokens := by
  have hlen : (lineOf tokens).length = tokens.length + 1 := rfl
  have htok : 1 ≤ tokens.length := by
    cases tokens with
    | nil => exact absurd rfl h
    | cons x xs => simp
  have hb := dpback_bounds tokens ((lineOf tokens).length - 1) (by omega) (by omega)
  set c0 := (dpbackOf tokens).getD ((lineOf tokens).length - 1) 0 with hc0
  have htn : Int.ofNat c0.toNat = c0 := Int.toNat_of_nonneg hb.1
  have hflat := walkSegs_flatten tokens c0.toNat (lineOf tokens).length
    (lineOf tokens).length (by omega) (le_refl _) (by omega)
  rw [htn] at hflat
  rw [hflat]
  unfold pySlice
  simp [List.take_length]

/-! ## Claim C2 (amended): length bounds on output lines -/

theorem joinSp_cons (w : Str) (rest : List Str) (h : rest ≠ []) :
    joinSp (w :: rest) = w ++ ' ' :: joinSp rest := by
  cases rest with
  | nil => exact absurd rfl h
  | cons x xs => rfl

/-- `' '.join`: total length is the sum of the token lengths plus one
separator between consecutive tokens. -/
theorem joinSp_length : ∀ (l : List Str), l ≠ [] →
    (joinSp l).length = (l.map List.length).sum + (l.length - 1) := by
  intro l
  induction l with
  | nil => intro h; exact absurd rfl h
  | cons w rest ih =>
      intro _
      cases rest with
      | nil => simp [joinSp]
      | cons x xs =>
          rw [joinSp_cons w (x :: xs) (by simp)]
          simp only [List.length_append, List.length_cons, ih (by simp),
            List.map_cons, List.sum_cons]
          simp only [List.length_cons] at ih ⊢
          omega

/-- Every slice of `l` sits inside a decomposition of `l`. -/
theorem pySlice_decomp (l : List Str) (a b : Nat) :
    ∃ pre post, l = pre ++ pySlice l a b ++ post := by
  refine ⟨l.take a, (l.drop a).drop (b - a), ?_⟩
  unfold pySlice
  rw [List.append_assoc, List.take_append_drop, List.take_append_drop]

/-- Every entry of the reconstruction walk is a slice of the line. -/
theorem mem_walkSegs (line : List Str) (back : List Int) :
    ∀ (fuel : Nat) (c : Int) (p : Nat) (sl : List Str),
      sl ∈ walkSegs line back fuel c p → ∃ a b, sl = pySlice line a b := by
  intro fuel
  induction fuel with
  | zero => intro c p sl hsl; simp [walkSegs] at hsl
  | succ f ih =>
      intro c p sl hsl
      unfold walkSegs at hsl
      split at hsl
      · simp only [List.mem_cons] at hsl
        rcases hsl with rfl | hsl
        · exact ⟨c.toNat, p, rfl⟩
        · exact ih _ _ sl hsl
      · simp at hsl

theorem sumLen_noblank : ∀ (l : List Str),
    ((noblank l).map List.length).sum = (l.map List.length).sum := by
  intro l
  induction l with
  | nil => rfl
  | cons x rest ih =>
      unfold noblank at ih ⊢
      rw [List.filter_cons]
      split
      · simp [ih]
      · rename_i hx
        simp only [decide_eq_true_eq, not_lt, Nat.le_zero] at hx
        simp only [List.map_cons, List.sum_cons, ih]
        omega

theorem noblank_length_le (l : List Str) : (noblank l).length ≤ l.length :=
  List.length_filter_le _ l

/-- The joined length of the non-blank part of any slice of the sentinel line
is at most the joined length of the whole span. -/
theorem slice_join_le (tokens : List Str) (a b : Nat) (htok : tokens ≠ []) :
    (joinSp (noblank (pySlice (lineOf tokens) a b))).length ≤ (joinSp tokens).length := by
  set sl := pySlice (lineOf tokens) a b with hsl
  rcases hnb : noblank sl with _ | ⟨w, ws⟩
  · simp [joinSp]
  · rw [← hnb]
    have hnbne : noblank sl ≠ [] := by rw [hnb]; simp
    rw [joinSp_length _ hnbne]
    obtain ⟨pre, post, hdec⟩ := pySlice_decomp (lineOf tokens) a b
    rw [← hsl] at hdec
    have hsum : ((noblank sl).map List.length).sum
        ≤ ((noblank (lineOf tokens)).map List.length).sum := by
      rw [hdec]
      unfold noblank
      rw [List.filter_append, List.filter_append]
      simp only [List.map_append, List.sum_append]
      omega
    have hcnt : (noblank sl).length ≤ (noblank (lineOf tokens)).length := by
      rw [hdec]
      unfold noblank
      rw [List.filter_append, List.filter_append]
      simp only [List.length_append]
      omega
    have hline : noblank (lineOf tokens) = noblank tokens := by
      unfold lineOf noblank
      rw [List.filter_cons]
      simp
    rw [hline] at hsum hcnt
    have hsum2 : ((noblank tokens).map List.length).sum = (tokens.map List.length).sum :=
      sumLen_noblank tokens
    have hcnt2 : (noblank tokens).length ≤ tokens.length := noblank_length_le tokens
    rw [joinSp_length tokens htok]
    omega

/-- C2 (amended): hard-limit avoidance holds only degenerately: if the whole
span joined by single spaces fits within the hard limit `CHARS_MAX = 120`,
then no output line of the Segmenter exceeds the hard limit.  (For spans
longer than that, a feasible partition does not prevent an overlong output
line: see the counterexample.) -/
theorem c2_amended_whole_span_fits (tokens : List Str)
    (h : ((joinSp tokens).length : Int) ≤ CHARS_MAX) :
    ∀ l ∈ segment tokens, ((l.length : Int)) ≤ CHARS_MAX := by
  intro l hl
  rcases eq_or_ne tokens [] with rfl | htokne
  · have hseg : segment [] = [] := rfl
    rw [hseg] at hl
    simp at hl
  · rw [segment_eq_segs] at hl
    rw [List.mem_reverse] at hl
    obtain ⟨sl, hsl, hgl⟩ := List.mem_map.mp hl
    obtain ⟨a, b, hab⟩ := mem_walkSegs (lineOf tokens) (dpbackOf tokens) _ _ _ sl hsl
    subst hab
    rw [← hgl]
    have := slice_join_le tokens a b htokne
    have hcm : CHARS_MAX = (120 : Int) := rfl
    rw [hcm] at h ⊢
    omega

/-- Witness for C2 (amended) at the two-token span `["a", "b"]`, whose single
output line is `"a b"`. -/
theorem c2_amended_witness : ((('a' :: ' ' :: 'b' :: []).length : Int)) ≤ CHARS_MAX :=
  c2_amended_whole_span_fits [['a'], ['b']] (by decide) ['a', ' ', 'b'] (by decide)

/-! ## Claim C3 (amended): token preservation for space-free tokens -/

theorem splitEach_ne_nil (p : Char → Bool) : ∀ (s : Str), splitEach p s ≠ [] := by
  intro s
  cases s with
  | nil => simp [splitEach]
  | cons c rest =>
      unfold splitEach
      split
      · simp
      · dsimp only
        split <;> simp

theorem splitEach_free (p : Char → Bool) : ∀ (w : Str),
    (∀ ch ∈ w, p ch = false) → splitEach p w = [w] := by
  intro w
  induction w with
  | nil => intro _; rfl
  | cons c rest ih =>
      intro h
      unfold splitEach
      rw [h c (by simp)]
      simp only [Bool.false_eq_true, if_false]
      rw [ih (fun ch hch => h ch (by simp [hch]))]

theorem splitEach_append_free (p : Char → Bool) : ∀ (w s : Str) (h0 : Str)
    (t0 : List Str), splitEach p s = h0 :: t0 → (∀ ch ∈ w, p ch = false) →
    splitEach p (w ++ s) = (w ++ h0) :: t0 := by
  intro w
  induction w with
  | nil => intro s h0 t0 hs _; simpa using hs
  | cons c w' ih =>
      intro s h0 t0 hs hfree
      have : (c :: w') ++ s = c :: (w' ++ s) := rfl
      rw [this]
      unfold splitEach
      rw [hfree c (by simp)]
      simp only [Bool.false_eq_true, if_false]
      rw [ih s h0 t0 hs (fun ch hch => hfree ch (by simp [hch]))]
      rfl

/-- Splitting on single spaces inverts joining by single spaces, for
space-free tokens. -/
theorem splitSp_joinSp : ∀ (ws : List Str), ws ≠ [] →
    (∀ w ∈ ws, ∀ ch ∈ w, ch ≠ ' ') → splitSp (joinSp ws) = ws := by
  intro ws
  induction ws with
  | nil => intro h; exact absurd rfl h
  | cons w rest ih =>
      intro _ hfree
      have hwfree : ∀ ch ∈ w, (fun c => decide (c = ' ')) ch = false := by
        intro ch hch
        simpa using hfree w (by simp) ch hch
      cases rest with
      | nil =>
          show splitEach _ (joinSp [w]) = [w]
          exact splitEach_free _ w hwfree
      | cons x xs =>
          rw [joinSp_cons w (x :: xs) (by simp)]
          have hrest : splitEach (fun c => decide (c = ' ')) (' ' :: joinSp (x :: xs))
              = [] :: splitSp (joinSp (x :: xs)) := by
            unfold splitEach
            simp [splitSp]
          have hihv : splitSp (joinSp (x :: xs)) = x :: xs :=
            ih (by simp) (fun u hu ch hch => hfree u (by simp [hu]) ch hch)
          show splitEach _ (w ++ ' ' :: joinSp (x :: xs)) = w :: x :: xs
          rw [splitEach_append_free _ w (' ' :: joinSp (x :: xs)) [] (x :: xs)
            (by rw [hrest, hihv]) hwfree]
          simp

theorem noblank_noblank (l : List Str) : noblank (noblank l) = noblank l := by
  unfold noblank
  rw [List.filter_filter]
  simp

/-- The roundtrip of one output line: noblank-join-split-noblank is noblank,
for space-free tokens. -/
theorem noblank_roundtrip (sl : List Str)
    (h : ∀ w ∈ sl, ∀ ch ∈ w, ch ≠ ' ') :
    noblank (splitSp (joinSp (noblank sl))) = noblank sl := by
  rcases hnb : noblank sl with _ | ⟨w, ws⟩
  · rfl
  · rw [← hnb]
    have hne : noblank sl ≠ [] := by rw [hnb]; simp
    have hfree : ∀ w ∈ noblank sl, ∀ ch ∈ w, ch ≠ ' ' := by
      intro u hu ch hch
      have : u ∈ sl := List.mem_of_mem_filter hu
      exact h u this ch hch
    rw [splitSp_joinSp (noblank sl) hne hfree, noblank_noblank]

/-- C3 (amended): for every reflow-eligible span whose tokens contain no space
characters (in particular every span not extended with a merged comment
line), concatenating the Segmenter's output lines, each split on spaces and
with blanks dropped, recovers exactly the non-blank input tokens in order. -/
theorem c3_amended_token_preservation (tokens : List Str)
    (h : ∀ w ∈ tokens, ∀ ch ∈ w, ch ≠ ' ') :
    claimOutWords tokens = noblank tokens := by
  rcases eq_or_ne tokens [] with rfl | htokne
  · rfl
  · unfold claimOutWords
    rw [segment_eq_segs]
    have hmaprev : (List.map (fun sl => joinSp (noblank sl))
        (walkSegs (lineOf tokens) (dpbackOf tokens) (lineOf tokens).length
          ((dpbackOf tokens).getD ((lineOf tokens).length - 1) 0)
          (lineOf tokens).length)).reverse
        = List.map (fun sl => joinSp (noblank sl))
            ((walkSegs (lineOf tokens) (dpbackOf tokens) (lineOf tokens).length
              ((dpbackOf tokens).getD ((lineOf tokens).length - 1) 0)
              (lineOf tokens).length).reverse) := (List.map_reverse _ _).symm
    rw [hmaprev]
    set S := (walkSegs (lineOf tokens) (dpbackOf tokens) (lineOf tokens).length
      ((dpbackOf tokens).getD ((lineOf tokens).length - 1) 0)
      (lineOf tokens).length).reverse with hS
    have hflat : S.flatten = lineOf tokens := segment_slices_flatten tokens htokne
    have hfree : ∀ sl ∈ S, ∀ w ∈ sl, ∀ ch ∈ w, ch ≠ ' ' := by
      intro sl hsl w hw ch hch
      have hwline : w ∈ lineOf tokens := by
        rw [← hflat]
        exact List.mem_flatten.mpr ⟨sl, hsl, hw⟩
      rcases List.mem_cons.mp hwline with rfl | hwtok
      · simp at hch
      · exact h w hwtok ch hch
    rw [List.flatMap_def, List.map_map]
    have hmape : S.map ((fun l => noblank (splitSp l)) ∘ (fun sl => joinSp (noblank sl)))
        = S.map noblank := by
      apply List.map_congr_left
      intro sl hsl
      exact noblank_roundtrip sl (hfree sl hsl)
    rw [hmape]
    show (S.map (List.filter _)).flatten = _
    rw [← List.filter_flatten, hflat]
    show noblank (lineOf tokens) = _
    unfold lineOf noblank
    rw [List.filter_cons]
    simp

/-- Witness for C3 (amended) at the space-free span `["a", "b"]`. -/
theorem c3_amended_witness : claimOutWords [['a'], ['b']] = noblank [['a'], ['b']] :=
  c3_amended_token_preservation [['a'], ['b']] (by decide)

/-! ## Claim C8 (amended): verbatim preservation machinery -/

theorem verbSpan_ws (l : Str) (h : startspace l = true) : verbSpan l = wsSpan l := by
  unfold verbSpan
  rw [if_pos h]

theorem verbSpan_cmd (l : Str) (h : startspace l = false) :
    verbSpan l = cmdSpan (pyStrip l) := by
  unfold verbSpan
  rw [if_neg (by rw [h]; exact Bool.false_ne_true)]

/-- The classifier's `join_left = forbid` spans are exactly the
leading-whitespace and single-command lines, in order. -/
theorem paragraphsAux_filter_forbid : ∀ (lines : List Str) (hyph : Bool)
    (current : List Str),
    (paragraphsAux hyph current lines).filter
        (fun s => decide (s.join_left = JoinPolicy.forbid))
      = (lines.filter verbLine).map verbSpan := by
  intro lines
  induction lines with
  | nil =>
      intro hyph current
      rw [para_nil]
      rfl
  | cons line rest ih =>
      intro hyph current
      by_cases h1 : startspace line = true
      · have hv : verbLine line = true := by simp [verbLine, h1]
        rw [para_ws hyph current line rest h1, List.filter_cons, List.filter_cons,
          List.filter_cons, hv, ih hyph []]
        simp only [if_true, List.map_cons, verbSpan_ws line h1]
        simp [mkFlush, wsSpan]
      · have h1' : startspace line = false := by
          cases hq : startspace line with
          | true => exact absurd hq h1
          | false => rfl
        by_cases h2 : (pyStrip line).length = 0
        · have hv : verbLine line = false := by simp [verbLine, h1', h2]
          rw [para_blank hyph current line rest h1' h2, List.filter_cons,
            List.filter_cons, List.filter_cons, hv, ih hyph []]
          simp [mkFlush, blankSpan]
        · by_cases h3 : hup (pyStrip line) = true
          · have hv : verbLine line = false := by simp [verbLine, h1', h3]
            rw [para_comment hyph current line rest h1' h2 h3, List.filter_cons,
              List.filter_cons, List.filter_cons, hv, ih hyph []]
            simp [mkFlush, commentSpan]
          · have h3' : hup (pyStrip line) = false := by
              cases hq : hup (pyStrip line) with
              | true => exact absurd hq h3
              | false => rfl
            by_cases h4 : matchSC (pyStrip line) = true
            · have hv : verbLine line = true := by
                simp [verbLine, h1', h2, h3', h4]
              rw [para_cmd hyph current line rest h1' h2 h3' h4, List.filter_cons,
                List.filter_cons, List.filter_cons, hv, ih hyph []]
              simp only [if_true, List.map_cons, verbSpan_cmd line h1']
              simp [mkFlush, cmdSpan]
            · have h4' : matchSC (pyStrip line) = false := by
                cases hq : matchSC (pyStrip line) with
                | true => exact absurd hq h4
                | false => rfl
              have hv : verbLine line = false := by simp [verbLine, h1', h4']
              by_cases h5 : endsBreak (proseLine hyph (pyStrip line)) = true
              · rw [para_prose_brk hyph current line rest h1' h2 h3' h4' h5,
                  List.filter_cons, List.filter_cons, hv, ih hyph []]
                simp [endSpan]
              · have h5' : endsBreak (proseLine hyph (pyStrip line)) = false := by
                  cases hq : endsBreak (proseLine hyph (pyStrip line)) with
                  | true => exact absurd hq h5
                  | false => rfl
                rw [para_prose_acc hyph current line rest h1' h2 h3' h4' h5',
                  List.filter_cons, hv, ih hyph _]
                simp

/-- Tokenization commutes with selecting the `join_left = forbid` spans. -/
theorem map_tokenize_filter (ss : List RawSpan) :
    (ss.map tokenize).filter (fun s => decide (s.join_left = JoinPolicy.forbid))
      = (ss.filter (fun s => decide (s.join_left = JoinPolicy.forbid))).map tokenize := by
  induction ss with
  | nil => rfl
  | cons r rs ih =>
      simp only [List.map_cons, List.filter_cons]
      have : (tokenize r).join_left = r.join_left := rfl
      rw [this]
      split
      · simp only [List.map_cons, ih]
      · exact ih

/-- The joiner never merges, drops or mutates a `join_left = forbid` span
(provided, as the classifier guarantees, such spans also forbid merging on
the right). -/
theorem joinAux_filter_forbid : ∀ (rest : List TokSpan) (previous : TokSpan),
    (∀ s ∈ previous :: rest, s.join_left = JoinPolicy.forbid →
      s.join_right = JoinPolicy.forbid) →
    (joinAux previous rest).filter (fun s => decide (s.join_left = JoinPolicy.forbid))
      = ((previous :: rest).filter
          (fun s => decide (s.join_left = JoinPolicy.forbid))) := by
  intro rest
  induction rest with
  | nil => intro previous _; rfl
  | cons x rest ih =>
      intro previous hinv
      unfold joinAux
      split
      · rw [List.filter_cons, List.filter_cons]
        have hrec := ih x (fun s hs h => hinv s (List.mem_cons_of_mem previous hs) h)
        rw [hrec]
      · rename_i hnf
        split
        · rename_i hpref
          have hpl : previous.join_left ≠ JoinPolicy.forbid := by
            intro hcl
            exact hnf (hinv previous (List.mem_cons_self _ _) hcl)
          have hext : ({ previous with content := previous.content ++ x.content }
              : TokSpan).join_left = previous.join_left := rfl
          have hrec := ih { previous with content := previous.content ++ x.content }
            (fun s hs h => by
              rcases List.mem_cons.mp hs with rfl | hs'
              · exact absurd (hext ▸ h) hpl
              · exact hinv s (List.mem_cons_of_mem _ (List.mem_cons_of_mem x hs')) h)
          rw [hrec, List.filter_cons, List.filter_cons, List.filter_cons]
          have hplf : (decide (previous.join_left = JoinPolicy.forbid)) = false := by
            simpa using hpl
          have hxlf : (decide (x.join_left = JoinPolicy.forbid)) = false := by
            rw [hpref]
            rfl
          rw [hext, hplf, hxlf]
          simp
        · rw [List.filter_cons, List.filter_cons]
          have hrec := ih x (fun s hs h => hinv s (List.mem_cons_of_mem previous hs) h)
          rw [hrec]

/-- Selecting a sub-family of spans yields a sublist of the emitted lines. -/
theorem filter_flatMap_sublist {α β : Type} (p : α → Bool) (f : α → List β) :
    ∀ (l : List α), ((l.filter p).flatMap f).Sublist (l.flatMap f) := by
  intro l
  induction l with
  | nil => simp
  | cons x xs ih =>
      rw [List.filter_cons]
      split
      · simp only [List.flatMap_cons]
        exact ih.append_left (f x)
      · simp only [List.flatMap_cons]
        exact ih.trans (List.sublist_append_right (f x) _)

theorem flatMap_singleton_map {α β γ : Type} (g : α → β) (h : β → γ) :
    ∀ (l : List α), (l.map g).flatMap (fun b => [h b]) = l.map (fun a => h (g a)) := by
  intro l
  induction l with
  | nil => rfl
  | cons x xs ih => simp [ih]

/-- The classifier's `join_left = forbid` spans also have
`join_right = forbid`. -/
theorem paragraphs_forbid_invariant (lines : List Str) :
    ∀ s ∈ (paragraphs lines).map tokenize,
      s.join_left = JoinPolicy.forbid → s.join_right = JoinPolicy.forbid := by
  intro s hs hl
  obtain ⟨r, hr, hrt⟩ := List.mem_map.mp hs
  have hrl : r.join_left = JoinPolicy.forbid := by rw [← hrt] at hl; exact hl
  have hgoal : r.join_right = JoinPolicy.forbid := by
    rcases mem_paragraphsAux lines true [] r hr with
      ⟨pp, h⟩ | ⟨l, h⟩ | h | ⟨l, h⟩ | ⟨l, h⟩ | ⟨pp, h⟩ <;> subst h <;>
      first | rfl | exact absurd hrl (by simp [mkFlush, blankSpan, commentSpan, endSpan])
  rw [← hrt]
  exact hgoal

/-- C8 (amended): every leading-whitespace line appears in the output
unchanged except for newline stripping, and every single-atomic-command line
appears whitespace-stripped, each as its own output line, in the original
relative order (as an order-preserving sublist of the output).  Comment lines
are not preserved byte-for-byte: they are whitespace-stripped and may be
merged into the previous output line. -/
theorem c8_amended_verbatim_sublist (lines : List Str) :
    (((lines.filter verbLine).map (fun l =>
        (if startspace l then stripNl l else pyStrip l) ++ ['\n']))).Sublist
      (reflow lines) := by
  have hforb := paragraphs_forbid_invariant lines
  have hjoin : (join_spans ((paragraphs lines).map tokenize)).filter
      (fun s => decide (s.join_left = JoinPolicy.forbid))
      = (((paragraphs lines).map tokenize).filter
          (fun s => decide (s.join_left = JoinPolicy.forbid))) := by
    rcases hts : (paragraphs lines).map tokenize with _ | ⟨x, rest⟩
    · rfl
    · unfold join_spans
      exact joinAux_filter_forbid rest x (by rw [← hts]; exact hforb)
  have hsel : ((paragraphs lines).map tokenize).filter
      (fun s => decide (s.join_left = JoinPolicy.forbid))
      = ((lines.filter verbLine).map verbSpan).map tokenize := by
    rw [map_tokenize_filter]
    unfold paragraphs at *
    rw [paragraphsAux_filter_forbid lines true []]
  have hsub := filter_flatMap_sublist
    (fun s => decide (s.join_left = JoinPolicy.forbid))
    (fun s => (if s.segment then segment s.content else s.content).map
      (fun seg => seg ++ ['\n']))
    (join_spans ((paragraphs lines).map tokenize))
  rw [hjoin, hsel] at hsub
  have hlhs : (((lines.filter verbLine).map verbSpan).map tokenize).flatMap
      (fun s => (if s.segment then segment s.content else s.content).map
        (fun seg => seg ++ ['\n']))
      = (lines.filter verbLine).map (fun l =>
          (if startspace l then stripNl l else pyStrip l) ++ ['\n']) := by
    rw [List.map_map]
    have hsingle : ∀ l ∈ lines.filter verbLine,
        ((fun s => (if s.segment then segment s.content else s.content).map
          (fun seg => seg ++ ['\n'])) ∘ (tokenize ∘ verbSpan)) l
        = [(if startspace l then stripNl l else pyStrip l) ++ ['\n']] := by
      intro l _
      dsimp only [Function.comp]
      by_cases hws : startspace l = true
      · rw [verbSpan_ws l hws, if_pos hws]
        rfl
      · have hws' : startspace l = false := by
          cases hq : startspace l with
          | true => exact absurd hq hws
          | false => rfl
        rw [verbSpan_cmd l hws',
          if_neg (show ¬ startspace l = true by rw [hws']; exact Bool.false_ne_true)]
        rfl
    calc ((lines.filter verbLine).map (tokenize ∘ verbSpan)).flatMap
          (fun s => (if s.segment then segment s.content else s.content).map
            (fun seg => seg ++ ['\n']))
        = (lines.filter verbLine).flatMap (fun l =>
            [(if startspace l then stripNl l else pyStrip l) ++ ['\n']]) := by
          rw [List.flatMap_map]
          rw [List.flatMap_def, List.flatMap_def]
          congr 1
          exact List.map_congr_left hsingle
      _ = (lines.filter verbLine).map (fun l =>
            (if startspace l then stripNl l else pyStrip l) ++ ['\n']) := by
          rw [List.flatMap_def]
          rw [show (fun l => [(if startspace l then stripNl l else pyStrip l) ++ ['\n']])
            = (fun l => [((fun l => (if startspace l then stripNl l else pyStrip l)
                ++ ['\n']) : Str → Str) l]) from rfl]
          induction (lines.filter verbLine) with
          | nil => rfl
          | cons x xs ihx => simp [ihx]
  rw [hlhs] at hsub
  exact hsub

/-! ## Claim C9 (amended): a provable fixed-point special case -/

theorem segment_spans_cons (x : TokSpan) (xs : List TokSpan) :
    segment_spans (x :: xs) =
      (if x.segment then segment x.content else x.content).map (fun seg => seg ++ ['\n'])
        ++ segment_spans xs := by
  unfold segment_spans
  rw [List.flatMap_cons]

theorem joinAux_nil (previous : TokSpan) : joinAux previous [] = [previous] := rfl

theorem joinAux_cons (previous x : TokSpan) (rest : List TokSpan) :
    joinAux previous (x :: rest) =
      if previous.join_right = JoinPolicy.forbid then previous :: joinAux x rest
      else if x.join_left = JoinPolicy.prefer then
        joinAux { previous with content := previous.content ++ x.content } rest
      else previous :: joinAux x rest := rfl

/-- Stepping the joiner past a pending span when the next span is a
leading-whitespace verbatim span (`join_left = forbid`): the pending span is
always flushed unchanged. -/
theorem joinAux_flush (q w : TokSpan) (ts : List TokSpan)
    (hw : w.join_left ≠ JoinPolicy.prefer) :
    joinAux q (w :: ts) = q :: joinAux w ts := by
  rw [joinAux_cons]
  by_cases hq : q.join_right = JoinPolicy.forbid
  · rw [if_pos hq]
  · rw [if_neg hq, if_neg hw]

/-- Core induction for the fixed point on leading-whitespace lines: feeding
the classifier's spans for such lines through the joiner behind any pending
span `p` emits `p`'s lines followed by the lines themselves. -/
theorem c9_core : ∀ (O : List Str),
    (∀ l ∈ O, startspace l = true ∧ l = stripNl l ++ ['\n']) →
    ∀ (p : TokSpan),
      segment_spans (joinAux p ((paragraphsAux true [] O).map tokenize))
        = (if p.segment then segment p.content else p.content).map
            (fun seg => seg ++ ['\n']) ++ O := by
  intro O
  induction O with
  | nil =>
      intro _ p
      rw [para_nil]
      simp only [List.map_cons, List.map_nil]
      rw [joinAux_flush p (tokenize (mkFlush [])) []
        (by simp [tokenize, mkFlush])]
      rw [segment_spans_cons, joinAux_nil, segment_spans_cons]
      rw [show ((if (tokenize (mkFlush [])).segment
          then segment (tokenize (mkFlush [])).content
          else (tokenize (mkFlush [])).content).map (fun seg => seg ++ ['\n']))
          = ([] : List Str) from rfl]
      simp [segment_spans]
  | cons l rest ih =>
      intro hyp p
      have hl := hyp l (List.mem_cons_self l rest)
      have hrest : ∀ l' ∈ rest, startspace l' = true ∧ l' = stripNl l' ++ ['\n'] :=
        fun l' hl' => hyp l' (List.mem_cons_of_mem l hl')
      rw [para_ws true [] l rest hl.1]
      simp only [List.map_cons]
      rw [joinAux_flush p (tokenize (mkFlush []))
        (tokenize (wsSpan l) :: (paragraphsAux true [] rest).map tokenize)
        (by simp [tokenize, mkFlush])]
      rw [segment_spans_cons]
      rw [joinAux_flush (tokenize (mkFlush [])) (tokenize (wsSpan l))
        ((paragraphsAux true [] rest).map tokenize)
        (by simp [tokenize, wsSpan])]
      rw [segment_spans_cons, ih hrest (tokenize (wsSpan l))]
      rw [show ((if (tokenize (mkFlush [])).segment
          then segment (tokenize (mkFlush [])).content
          else (tokenize (mkFlush [])).content).map (fun seg => seg ++ ['\n']))
          = ([] : List Str) from rfl]
      rw [show ((if (tokenize (wsSpan l)).segment
          then segment (tokenize (wsSpan l)).content
          else (tokenize (wsSpan l)).content).map (fun seg => seg ++ ['\n']))
          = [stripNl l ++ ['\n']] from rfl]
      rw [← hl.2]
      simp

/-- C9 (amended): re-running the pipeline is a fixed point on outputs all of
whose lines are leading-whitespace verbatim lines (each preserved unchanged);
in general idempotence fails even when all output lines are within the soft
width thresholds and no verbatim spans are joinable, because a reflowed line
ending in a hyphen is re-joined by the second pass's hyphenation rule. -/
theorem c9_amended_ws_fixed_point (O : List Str)
    (h : ∀ l ∈ O, startspace l = true ∧ l = stripNl l ++ ['\n']) :
    reflow O = O := by
  cases O with
  | nil => rfl
  | cons l rest =>
      have hl := h l (List.mem_cons_self l rest)
      have hrest : ∀ l' ∈ rest, startspace l' = true ∧ l' = stripNl l' ++ ['\n'] :=
        fun l' hl' => h l' (List.mem_cons_of_mem l hl')
      unfold reflow paragraphs
      rw [para_ws true [] l rest hl.1]
      simp only [List.map_cons]
      rw [show ∀ (x : TokSpan) (xs : List TokSpan), join_spans (x :: xs) = joinAux x xs
        from fun _ _ => rfl]
      rw [joinAux_flush (tokenize (mkFlush [])) (tokenize (wsSpan l))
        ((paragraphsAux true [] rest).map tokenize)
        (by simp [tokenize, wsSpan])]
      rw [segment_spans_cons, c9_core rest hrest (tokenize (wsSpan l))]
      rw [show ((if (tokenize (mkFlush [])).segment
          then segment (tokenize (mkFlush [])).content
          else (tokenize (mkFlush [])).content).map (fun seg => seg ++ ['\n']))
          = ([] : List Str) from rfl]
      rw [show ((if (tokenize (wsSpan l)).segment
          then segment (tokenize (wsSpan l)).content
          else (tokenize (wsSpan l)).content).map (fun seg => seg ++ ['\n']))
          = [stripNl l ++ ['\n']] from rfl]
      rw [← hl.2]
      simp

/-- Witness for C9 (amended) at the single indented line `"  a\n"`. -/
theorem c9_amended_witness : reflow [[' ', ' ', 'a', '\n']] = [[' ', ' ', 'a', '\n']] :=
  c9_amended_ws_fixed_point [[' ', ' ', 'a', '\n']] (by decide)

end Reflow
